import Mathlib

/-!
# four.js geometry builders: shallow embedding and verification

This file embeds the computational core of the repository's two geometry
builders in Lean 4 and proves properties about them:

* `HyperGeometry` (the spec's CellGeometryBuilder, `src/HyperGeometry.js`):
  construction-time flattening/triangulation of each cell's faces and the
  per-frame position refresh.
* `HyperSliceGeometry` (the spec's CrossSectionBuilder,
  `src/HyperSliceGeometry.js`): the per-frame cross-section computation,
  including the loop-reconstruction algorithm on unordered intersection
  segments (`update`, lines 63-203).

Numbers are modelled as rationals (the JS sources use IEEE doubles only
through comparisons, additions and subtractions on values produced by the
external projector, which the embedding takes as an abstract function, so
exactness of `ℚ` does not change any control flow modelled here).
The external `hyperRenderer.project` / `hyperRenderer.slice` collaborators
are parameters of the embedded functions.
-/

/-- A 3D point, as produced by `hyperRenderer.project` / `slice`. -/
abbrev Vec3 : Type := ℚ × ℚ × ℚ

/-- A 4D vertex of the shape model. -/
abbrev Vec4 : Type := ℚ × ℚ × ℚ × ℚ

/-- The `{vertices, faces, cells}` shape model (spec section 3): faces are
ordered vertex-index lists, cells are face-index lists. -/
structure Shape where
  vertices : List Vec4
  faces : List (List Nat)
  cells : List (List Nat)

/-- The matching tolerance, `const epsilon = 1e-8` (HyperSliceGeometry.js
line 65). -/
def eps0 : ℚ := 1 / 100000000

/-- Componentwise absolute-tolerance match of a segment endpoint `p` against
the dangling point `d`: `p1.every((c, ci) => Math.abs(c - dangle[ci]) <
epsilon)` (HyperSliceGeometry.js lines 98 and 103). -/
def ptMatch (eps : ℚ) (p d : Vec3) : Bool :=
  |p.1 - d.1| < eps && |p.2.1 - d.2.1| < eps && |p.2.2 - d.2.2| < eps

/-- One full scan of the remaining segments (the `for` loop of
HyperSliceGeometry.js lines 96-108): find the first segment whose first or
second point matches the dangling point `d`; return the remaining segments
with that segment spliced out, together with the segment's other endpoint
(the point pushed onto `linkedPairs`).  `none` models a scan in which no
segment matched (`lp === pairs.length` at line 109).

A segment is matched through its first two points only (`const [p1, p2] =
pairs[pairIndex]`, line 97); segments with fewer than two points cannot
reach this code from `update` because of the `pair.length > 1` filter
(line 88), and are treated as non-matching here. -/
def scanStep (eps : ℚ) (d : Vec3) : List (List Vec3) → Option (List (List Vec3) × Vec3)
  | [] => none
  | s :: rest =>
    match s with
    | p1 :: p2 :: _ =>
      if ptMatch eps p1 d then some (rest, p2)
      else if ptMatch eps p2 d then some (rest, p1)
      else (scanStep eps d rest).map fun rq => (s :: rq.1, rq.2)
    | _ => (scanStep eps d rest).map fun rq => (s :: rq.1, rq.2)

/-- The body of the `while (pairs.length)` loop of HyperSliceGeometry.js
lines 93-113, recursing on the number `n` of remaining segments (each
successful scan splices exactly one segment out, so `n` is always
`segs.length`; the `0, _ :: _` case is unreachable under that invariant and
`linkAux` below always instantiates `n := segs.length`).
`chain` holds the linked points built so far except the dangling point `d`
(so `chain ++ [d]` is the JS `linkedPairs`, whose last element is the
dangling point, line 95).  Each iteration performs one full scan: on a match
the matched segment is removed and its other endpoint becomes the new
dangling point; on a failed scan the whole reconstruction is aborted
(`return` at line 111), modelled by `none`. -/
def linkAuxF (eps : ℚ) : Nat → List (List Vec3) → List Vec3 → Vec3 → Option (List Vec3)
  | _, [], chain, d => some (chain ++ [d])
  | 0, _ :: _, _, _ => none
  | n + 1, s :: ss, chain, d =>
    match scanStep eps d (s :: ss) with
    | none => none
    | some (rest, q) => linkAuxF eps n rest (chain ++ [d]) q

/-- The `while (pairs.length)` loop of HyperSliceGeometry.js lines 93-113:
`linkAuxF` run with the iteration bound instantiated to the exact number of
remaining segments. -/
def linkAux (eps : ℚ) (segs : List (List Vec3)) (chain : List Vec3) (d : Vec3) :
    Option (List Vec3) :=
  linkAuxF eps segs.length segs chain d

/-- Loop reconstruction for one cell's pair list (HyperSliceGeometry.js lines
91-113): seed `linkedPairs` with every point of the first pair
(`linkedPairs.push(...pairs.shift())`, line 92), then run the linking loop.
In `update` this is only ever reached with `pairs.length > 2` (line 90), so
the remaining-segments list is nonempty; an empty first pair (impossible
through the line 88 filter) would leave the JS dangling point `undefined`,
which matches nothing, so the first scan would abort: hence `none` here. -/
def reconstructLoop (eps : ℚ) : List (List Vec3) → Option (List Vec3)
  | [] => none
  | first :: rest =>
    match first.getLast? with
    | none => none
    | some d => linkAux eps rest first.dropLast d

/-- Fan triangle indices for a loop of `n` chain points starting at global
vertex counter `i`: `indices.push(i, i + j + 1, i + j + 2)` for the
`linkedPairs.length - 2` triangles (HyperSliceGeometry.js lines 115-119). -/
def fanTris (i n : Nat) : List (Nat × Nat × Nat) :=
  (List.range (n - 2)).map fun j => (i, i + j + 1, i + j + 2)

/-- Edge indices for a loop of `n` chain points starting at counter `i`:
`edgeIndices.push(i + j, i + ((j + 1) % linkedPairs.length))`
(HyperSliceGeometry.js lines 121-125). -/
def loopEdges (i n : Nat) : List (Nat × Nat) :=
  (List.range n).map fun j => (i + j, i + (j + 1) % n)

/-- What one cell contributes to the frame's output: emitted points (the
chain written to the position buffers, lines 127-177), triangle indices and
edge indices. -/
structure CellOut where
  pts : List Vec3
  tris : List (Nat × Nat × Nat)
  edges : List (Nat × Nat)
  deriving Repr, DecidableEq

/-- A cell that is skipped or whose reconstruction is abandoned contributes
nothing. -/
def emptyOut : CellOut := ⟨[], [], []⟩

/-- The 4D vertex looked up for a vertex index; out-of-range indices cannot
occur for a well-formed shape (the JS code would read `undefined`). -/
def vtx (vertices : List Vec4) (ix : Nat) : Vec4 :=
  vertices.getD ix (0, 0, 0, 0)

/-- The argument pairs fed to `hyperRenderer.slice` for one face: one call
per boundary edge, walking consecutive vertex pairs cyclically —
`face.map((verticeIndex, faceVerticeIndex) => [vertices[verticeIndex],
vertices[face[(faceVerticeIndex + 1) % face.length]]])`
(HyperSliceGeometry.js lines 81-85). -/
def faceEdgeArgs (vertices : List Vec4) (face : List Nat) : List (Vec4 × Vec4) :=
  (List.range face.length).map fun k =>
    (vtx vertices (face.getD k 0), vtx vertices (face.getD ((k + 1) % face.length) 0))

/-- The non-`none` intersection points a face yields:
`.map(([p1, p2]) => this.hyperRenderer.slice(p1, p2)).filter(x => x)`
(HyperSliceGeometry.js lines 86-87). -/
def faceIntersections (slice : Vec4 → Vec4 → Option Vec3) (vertices : List Vec4)
    (face : List Nat) : List Vec3 :=
  (faceEdgeArgs vertices face).filterMap fun ab => slice ab.1 ab.2

/-- The faces of one cell: `cell.map(faceIndex => faces[faceIndex])`
(HyperSliceGeometry.js lines 78-79). -/
def cellFaces (faces : List (List Nat)) (cell : List Nat) : List (List Nat) :=
  cell.map fun fi => faces.getD fi []

/-- The cell's pair list: each face's intersection list is kept only when it
has more than one point (`pair.length > 1 && pairs.push(pair)`,
HyperSliceGeometry.js line 88), in face order. -/
def cellPairs (slice : Vec4 → Vec4 → Option Vec3) (vertices : List Vec4)
    (faces : List (List Nat)) (cell : List Nat) : List (List Vec3) :=
  ((cellFaces faces cell).map (faceIntersections slice vertices)).filter
    fun pr => decide (1 < pr.length)

/-- One cell's processing in `update` given the running global vertex counter
`i`: reconstruction is attempted only when `pairs.length > 2`
(HyperSliceGeometry.js line 90); an abandoned reconstruction emits nothing
(line 111); on success the chain points, fan triangles and wraparound edges
are emitted (lines 115-177). -/
def cellEmit (eps : ℚ) (pairs : List (List Vec3)) (i : Nat) : CellOut :=
  if 2 < pairs.length then
    match reconstructLoop eps pairs with
    | none => emptyOut
    | some chain => ⟨chain, fanTris i chain.length, loopEdges i chain.length⟩
  else emptyOut

/-- The `cells.forEach` of `update` (HyperSliceGeometry.js lines 69-179),
threading the global vertex counter `i` (line 66, advanced at line 176
once per emitted chain point): returns the final counter and the
concatenated point, triangle-index and edge-index streams of the frame. -/
def sliceCells (eps : ℚ) (slice : Vec4 → Vec4 → Option Vec3) (vertices : List Vec4)
    (faces : List (List Nat)) : List (List Nat) → Nat →
    Nat × List Vec3 × List (Nat × Nat × Nat) × List (Nat × Nat)
  | [], i => (i, [], [], [])
  | cell :: cs, i =>
    let out := cellEmit eps (cellPairs slice vertices faces cell) i
    let rec2 := sliceCells eps slice vertices faces cs (i + out.pts.length)
    (rec2.1, out.pts ++ rec2.2.1, out.tris ++ rec2.2.2.1, out.edges ++ rec2.2.2.2)

/-- A full `HyperSliceGeometry.update` pass over the shape, starting from
`let i = 0` (line 66). -/
def sliceUpdate (eps : ℚ) (slice : Vec4 → Vec4 → Option Vec3) (shape : Shape) :
    Nat × List Vec3 × List (Nat × Nat × Nat) × List (Nat × Nat) :=
  sliceCells eps slice shape.vertices shape.faces shape.cells 0

/-- The argument pairs passed to `hyperRenderer.slice` over one whole
`update()` call: every cell walks every one of its faces' boundary edges
(HyperSliceGeometry.js lines 69-89). -/
def hsSliceCalls (shape : Shape) : List (Vec4 × Vec4) :=
  (shape.cells.map fun cell =>
    ((cellFaces shape.faces cell).map (faceEdgeArgs shape.vertices)).flatten).flatten

/-- The pessimistic position-buffer capacity of `HyperSliceGeometry`:
`const maxPositions = 2 * cells.reduce((rv, c) => rv + c.length, 0)`
(HyperSliceGeometry.js line 29) — two slots per face reference. -/
def maxPositions (shape : Shape) : Nat :=
  2 * (shape.cells.map List.length).sum

/-! ## HyperGeometry (the spec's CellGeometryBuilder) -/

/-- The construction-time fan triangulation of one cell's face list
(HyperGeometry.js lines 45-54): for each face, `face.length - 2` triangles
`(faceShift, faceShift + i + 1, faceShift + i + 2)` are pushed, and
`faceShift` then advances by `face.length`.  The accumulator carries the
index list built so far and the current `faceShift`. -/
def cellFaceTris (faces : List (List Nat)) : List (Nat × Nat × Nat) :=
  (faces.foldl
    (fun acc face =>
      (acc.1 ++ (List.range (face.length - 2)).map
        (fun j => (acc.2, acc.2 + j + 1, acc.2 + j + 2)),
       acc.2 + face.length))
    (([] : List (Nat × Nat × Nat)), 0)).1

/-- Modelled from the spec's words (section 4.2: "for a face with k
vertices, k−2 triangles, fan from the face's first vertex", each anchored at
the face's first occurrence slot `f` in the expanded per-cell index stream):
the triangles `(f, f+j+1, f+j+2)` for `j < k-2`, with `f` advancing by each
face's length.  Used only as the comparison point for the refinement claim
about `cellFaceTris`. -/
def specFanTris : Nat → List (List Nat) → List (Nat × Nat × Nat)
  | _, [] => []
  | f, face :: rest =>
    ((List.range (face.length - 2)).map fun j => (f, f + j + 1, f + j + 2)) ++
      specFanTris (f + face.length) rest

/-- In-place rewrite of a fixed-capacity position buffer (one `Vec3` slot
per buffer vertex): slot `i` receives `pts[i]` for every `i <` the number of
points written this frame, and the remaining slots keep their previous
contents.  Writes beyond the buffer capacity are discarded, as JS typed
arrays do with out-of-range indexed assignment. -/
def writeVecs (buf : List Vec3) (pts : List Vec3) : List Vec3 :=
  pts.take buf.length ++ buf.drop pts.length

/-- `List.map` instrumented to also return the list of arguments the mapped
function is applied to, in call order: used to express how many times
`update()` invokes the projector. -/
def mapWithTrace (f : α → β) : List α → List α × List β
  | [] => ([], [])
  | x :: xs =>
    let r := mapWithTrace f xs
    (x :: r.1, f x :: r.2)

/-- The expanded per-cell index stream of one cell, computed at construction
(HyperGeometry.js lines 30-33): the cell's faces flattened into one
vertex-index occurrence list. -/
def expandedIndices (faces : List (List Nat)) (cell : List Nat) : List Nat :=
  (cellFaces faces cell).flatten

/-- The deduplicated per-cell vertex-index list
(`[...new Set(verticesIndices)]`, HyperGeometry.js line 34): first
occurrences kept, in order. -/
def dedupIndices (faces : List (List Nat)) (cell : List Nat) : List Nat :=
  (expandedIndices faces cell).dedup

/-- The mutable state of one `HyperGeometry` builder that `update()` touches
or must leave intact: per-cell position buffers for the face, edge and point
geometries, per-cell color buffers, the triangle and edge index lists set at
construction, and the construction-computed index streams `update()` reads
(normals, recomputed by the rendering engine from positions at line 194, are
not modelled). -/
structure HGState where
  expanded : List (List Nat)
  dedup : List (List Nat)
  facePos : List (List Vec3)
  edgePos : List (List Vec3)
  pointPos : List (List Vec3)
  faceColor : List (List Vec3)
  edgeColor : List (List Vec3)
  pointColor : List (List Vec3)
  triIdx : List (List (Nat × Nat × Nat))
  edgeIdx : List (List (Nat × Nat))

/-- One buffer family's position refresh in `HyperGeometry.update`
(lines 183-196, 200-210 and 214-224): for each cell, slot `i` of the
position buffer receives the projected vertex `vertices[vertexIndices[i]]`;
nothing else in the buffer changes. -/
def hgWriteFamily (projected : List Vec3) (idxStreams : List (List Nat))
    (bufs : List (List Vec3)) : List (List Vec3) :=
  bufs.zipWith
    (fun buf idxs => writeVecs buf (idxs.map fun ix => projected.getD ix (0, 0, 0)))
    idxStreams

/-- `HyperGeometry.update()` (lines 178-226): projects every vertex of the
shape once (`this.shape.vertices.map(project)`, lines 179-181), then rewrites
each cell's face/edge/point position buffers in place from the projected
array; index lists and color buffers are not touched.  Returns the argument
trace of the `project` calls together with the new state. -/
def hgUpdate (project : Vec4 → Vec3) (vertices : List Vec4) (s : HGState) :
    List Vec4 × HGState :=
  ((mapWithTrace project vertices).1,
   { s with
     facePos := hgWriteFamily (mapWithTrace project vertices).2 s.expanded s.facePos
     edgePos := hgWriteFamily (mapWithTrace project vertices).2 s.dedup s.edgePos
     pointPos := hgWriteFamily (mapWithTrace project vertices).2 s.dedup s.pointPos })

/-- Construction-time validity of a face reference as exercised by the
`HyperGeometry` constructor's face path (lines 41-56): `faces[faceIndex]`
must exist (otherwise `face.length` throws a TypeError at line 49), and the
face must have at least 2 vertices (otherwise
`new Array(face.length - 2)` throws a RangeError at line 49).  Note no
check requires 3 vertices: a 2-vertex face passes construction. -/
def faceRefOk (faces : List (List Nat)) (fi : Nat) : Bool :=
  fi < faces.length && 2 ≤ (faces.getD fi []).length

/-- The `HyperGeometry` constructor with the default options
(`useFaces = true`, `useEdges = usePoints = useColors = false`), up to and
including the tessellation loop (lines 28-57): `none` models a thrown
exception; on success it returns each cell's expanded index stream and
triangle index list.  The constructor performs no validation of its own;
the only ways it can throw are the undefined-face TypeError and the
negative-array-length RangeError captured by `faceRefOk`. -/
def hgConstructFaces (shape : Shape) : Option (List (List Nat × List (Nat × Nat × Nat))) :=
  if shape.cells.all fun cell => cell.all (faceRefOk shape.faces) then
    some (shape.cells.map fun cell =>
      (expandedIndices shape.faces cell, cellFaceTris (cellFaces shape.faces cell)))
  else none

/-- The `this.update()` call that ends the constructor (line 156), on the
face path: projecting is total, but `const [x, y, z] = vertices[...]`
(line 187) throws a TypeError when an index dangles past the vertex list, so
the update succeeds exactly when every expanded index is in range. -/
def hgFirstUpdate (project : Vec4 → Vec3) (shape : Shape)
    (built : List (List Nat × List (Nat × Nat × Nat))) : Option (List (List Vec3)) :=
  if built.all fun b => b.1.all fun ix => ix < shape.vertices.length then
    some (built.map fun b => b.1.map fun ix => (shape.vertices.map project).getD ix (0, 0, 0))
  else none

/-- Full default-option `HyperGeometry` construction: the constructor body
followed by its closing `update()` call; `none` wherever the JS constructor
would throw. -/
def hgConstruct (project : Vec4 → Vec3) (shape : Shape) :
    Option (List (List Nat × List (Nat × Nat × Nat)) × List (List Vec3)) :=
  match hgConstructFaces shape with
  | none => none
  | some built =>
    match hgFirstUpdate project shape built with
    | none => none
    | some pos => some (built, pos)

/-- The position state of one `HyperSliceGeometry` builder (the single
shared position buffer of the face geometry, `maxPositions` slots, line
32): `update` writes the frame's chain points into slots `0 .. i-1` and
leaves the rest of the buffer unchanged (lines 140-142). -/
def hsUpdatePos (eps : ℚ) (slice : Vec4 → Vec4 → Option Vec3) (shape : Shape)
    (buf : List Vec3) : List Vec3 :=
  writeVecs buf (sliceUpdate eps slice shape).2.1

/-! ## Cycle and segment structure used to state the loop-closure property -/

/-- Whether the first scan test of a segment against dangling point `d`
would succeed, i.e. one of its first two points matches `d`
(HyperSliceGeometry.js lines 98 and 103). -/
def segHits (eps : ℚ) (d : Vec3) : List Vec3 → Bool
  | p1 :: p2 :: _ => ptMatch eps p1 d || ptMatch eps p2 d
  | _ => false

/-- Two points are apart when they do not match within the tolerance. -/
def Apart (eps : ℚ) (p q : Vec3) : Prop := ptMatch eps p q = false

/-- A stored segment equals a reference segment up to endpoint order. -/
def SegFlip (s t : List Vec3) : Prop := s = t ∨ s = t.reverse

/-- `segs` is, up to list order and up to each segment's endpoint order, the
reference segment list `target`. -/
def FlipPerm (segs target : List (List Vec3)) : Prop :=
  ∃ mid, segs.Perm mid ∧ List.Forall₂ SegFlip mid target

/-- The consecutive two-point segments of the walk `d :: ps`. -/
def pathSegs : Vec3 → List Vec3 → List (List Vec3)
  | _, [] => []
  | d, p :: ps => [d, p] :: pathSegs p ps

/-- The consecutive two-point segments of the closed cycle through the
points `qs`, in order, wrapping from the last point back to the first. -/
def cycleSegs : List Vec3 → List (List Vec3)
  | [] => []
  | q :: qs => pathSegs q (qs ++ [q])

/-! ## Concrete data for witnesses and counterexamples -/

/-- Corner points of a concrete square cross-section. -/
def qA : Vec3 := (0, 0, 0)

def qB : Vec3 := (1, 0, 0)

def qC : Vec3 := (1, 1, 0)

def qD : Vec3 := (0, 1, 0)

/-- The square's four points in cycle order. -/
def qsCyc : List Vec3 := [qA, qB, qC, qD]

/-- The square's four boundary segments as a cell's pair list, deliberately
shuffled and with one segment's endpoints swapped. -/
def pairsCyc : List (List Vec3) := [[qB, qA], [qC, qD], [qD, qA], [qB, qC]]

/-- `pairsCyc` reordered to line up with `cycleSegs qsCyc` segmentwise. -/
def midCyc : List (List Vec3) := [[qB, qA], [qB, qC], [qC, qD], [qD, qA]]

/-- A pair list whose chain cannot close: the third segment shares no
endpoint with the first two. -/
def pairsBroken : List (List Vec3) := [[qA, qB], [qB, qC], [(5, 5, 5), (6, 6, 6)]]

/-- Distinct 4D vertices used by the concrete shapes below. -/
def u0 : Vec4 := (0, 0, 0, 0)

def u1 : Vec4 := (1, 0, 0, 0)

def u2 : Vec4 := (0, 1, 0, 0)

def u3 : Vec4 := (0, 0, 1, 0)

/-- A shape whose single cell has two triangular faces sharing the edge
`{u0, u1}` (C2): face 0 walks it as `(0,1)`, face 1 as `(1,0)`. -/
def shapeShared : Shape :=
  { vertices := [u0, u1, u2, u3]
    faces := [[0, 1, 2], [1, 0, 3]]
    cells := [[0, 1]] }

/-- A shape containing a 2-vertex face (C3): invalid per the model
invariant (faces must have length ≥ 3). -/
def shapeTwoV : Shape :=
  { vertices := [u0, u1]
    faces := [[0, 1]]
    cells := [[0]] }

/-- A triangular face whose slice result is degenerate (C5). -/
def shapeTri : Shape :=
  { vertices := [u0, u1, u2]
    faces := [[0, 1, 2]]
    cells := [[0]] }

/-- A slice function returning the same point for the edges `(u0,u1)` and
`(u1,u2)` and `none` elsewhere: the face of `shapeTri` then yields two
coincident intersection points (one distinct point). -/
def sliceDup (a b : Vec4) : Option Vec3 :=
  if a = u0 ∧ b = u1 then some (5, 5, 5)
  else if a = u1 ∧ b = u2 then some (5, 5, 5)
  else none

/-- A tetrahedral cell: 4 vertices, 4 triangular faces (C9). -/
def shapeTetra : Shape :=
  { vertices := [u0, u1, u2, u3]
    faces := [[0, 1, 2], [0, 1, 3], [1, 2, 3], [0, 2, 3]]
    cells := [[0, 1, 2, 3]] }

/-- Returns `p` when `{a, b}` is the unordered edge `{x, y}`. -/
def edgeSlice (a b x y : Vec4) (p : Vec3) : Option Vec3 :=
  if (a = x ∧ b = y) ∨ (a = y ∧ b = x) then some p else none

/-- A slice function cutting the four tetrahedron edges that separate
`{u0, u1}` from `{u2, u3}`, so every face of `shapeTetra` yields exactly 2
intersection points. -/
def sliceTetra (a b : Vec4) : Option Vec3 :=
  match edgeSlice a b u1 u2 (1, 0, 0) with
  | some p => some p
  | none =>
    match edgeSlice a b u0 u2 (0, 1, 0) with
    | some p => some p
    | none =>
      match edgeSlice a b u1 u3 (0, 0, 1) with
      | some p => some p
      | none => edgeSlice a b u0 u3 (1, 1, 0)

/-- A small well-formed builder state (C7 witness): one cell whose expanded
stream references vertices 0, 1, 0 and whose dedup list is `[0, 1]`. -/
def hgStateW : HGState :=
  { expanded := [[0, 1, 0]]
    dedup := [[0, 1]]
    facePos := [[(0, 0, 0), (0, 0, 0), (0, 0, 0)]]
    edgePos := [[(0, 0, 0), (0, 0, 0)]]
    pointPos := [[(0, 0, 0), (0, 0, 0)]]
    faceColor := [[(1, 0, 0), (0, 1, 0), (0, 0, 1)]]
    edgeColor := [[(1, 0, 0), (0, 1, 0)]]
    pointColor := [[(1, 0, 0), (0, 1, 0)]]
    triIdx := [[(0, 1, 2)]]
    edgeIdx := [[(0, 1), (1, 2), (2, 0)]] }

/-! ## Basic lemmas about the scan and the linking loop -/

theorem scanStep_length {eps : ℚ} {d : Vec3} :
    ∀ {segs rest : List (List Vec3)} {q : Vec3},
      scanStep eps d segs = some (rest, q) → rest.length + 1 = segs.length := by
  intro segs
  induction segs with
  | nil => intro rest q h; simp [scanStep] at h
  | cons s tl ih =>
    intro rest q h
    match s with
    | p1 :: p2 :: srest =>
      by_cases h1 : ptMatch eps p1 d
      · simp [scanStep, h1] at h
        simp [← h.1]
      · by_cases h2 : ptMatch eps p2 d
        · simp [scanStep, h1, h2] at h
          simp [← h.1]
        · have hred : scanStep eps d ((p1 :: p2 :: srest) :: tl) =
              if ptMatch eps p1 d then some (tl, p2)
              else if ptMatch eps p2 d then some (tl, p1)
              else (scanStep eps d tl).map fun rq =>
                ((p1 :: p2 :: srest) :: rq.1, rq.2) := rfl
          cases hres : scanStep eps d tl with
          | none => rw [hred, if_neg h1, if_neg h2, hres] at h; simp at h
          | some rq0 =>
            obtain ⟨r0, q0⟩ := rq0
            rw [hred, if_neg h1, if_neg h2, hres] at h
            simp at h
            have := ih hres
            simp [← h.1]
            omega
    | [] =>
      have hred : scanStep eps d (([] : List Vec3) :: tl) =
          (scanStep eps d tl).map fun rq => (([] : List Vec3) :: rq.1, rq.2) := rfl
      cases hres : scanStep eps d tl with
      | none => rw [hred, hres] at h; simp at h
      | some rq0 =>
        obtain ⟨r0, q0⟩ := rq0
        rw [hred, hres] at h
        simp at h
        have := ih hres
        simp [← h.1]
        omega
    | [p1] =>
      have hred : scanStep eps d ([p1] :: tl) =
          (scanStep eps d tl).map fun rq => ([p1] :: rq.1, rq.2) := rfl
      cases hres : scanStep eps d tl with
      | none => rw [hred, hres] at h; simp at h
      | some rq0 =>
        obtain ⟨r0, q0⟩ := rq0
        rw [hred, hres] at h
        simp at h
        have := ih hres
        simp [← h.1]
        omega

theorem linkAux_nil (eps : ℚ) (chain : List Vec3) (d : Vec3) :
    linkAux eps [] chain d = some (chain ++ [d]) := rfl

theorem linkAux_cons (eps : ℚ) (s : List Vec3) (ss : List (List Vec3))
    (chain : List Vec3) (d : Vec3) :
    linkAux eps (s :: ss) chain d =
      match scanStep eps d (s :: ss) with
      | none => none
      | some (rest, q) => linkAux eps rest (chain ++ [d]) q := by
  show linkAuxF eps (ss.length + 1) (s :: ss) chain d = _
  cases h : scanStep eps d (s :: ss) with
  | none => simp [linkAuxF, h]
  | some rq =>
    obtain ⟨rest, q⟩ := rq
    have hl := scanStep_length h
    simp only [List.length_cons, Nat.add_right_cancel_iff] at hl
    simp [linkAuxF, h, linkAux, hl]

theorem linkAuxF_length {eps : ℚ} :
    ∀ (n : Nat) (segs : List (List Vec3)) (chain : List Vec3) (d : Vec3)
      (out : List Vec3),
      linkAuxF eps n segs chain d = some out → segs.length ≤ n →
      out.length = chain.length + 1 + segs.length := by
  intro n
  induction n with
  | zero =>
    intro segs chain d out h hle
    match segs with
    | [] =>
      simp only [linkAuxF, Option.some.injEq] at h
      subst h
      simp
    | s :: ss => simp at hle
  | succ n ih =>
    intro segs chain d out h hle
    match segs with
    | [] =>
      simp only [linkAuxF, Option.some.injEq] at h
      subst h
      simp
    | s :: ss =>
      simp only [linkAuxF] at h
      cases hscan : scanStep eps d (s :: ss) with
      | none => rw [hscan] at h; simp at h
      | some rq =>
        obtain ⟨rest, q⟩ := rq
        rw [hscan] at h
        have hl := scanStep_length hscan
        have hrest : rest.length ≤ n := by
          simp only [List.length_cons] at hl hle; omega
        have := ih rest (chain ++ [d]) q out h hrest
        have hl2 : rest.length = ss.length := by
          simp only [List.length_cons] at hl; omega
        simp only [List.length_append, List.length_cons, List.length_nil] at this ⊢
        omega

theorem linkAux_length {eps : ℚ} {segs : List (List Vec3)} {chain : List Vec3}
    {d : Vec3} {out : List Vec3} (h : linkAux eps segs chain d = some out) :
    out.length = chain.length + 1 + segs.length :=
  linkAuxF_length segs.length segs chain d out h le_rfl

/-! ## Buffer-write lemmas -/

theorem writeVecs_length (buf pts : List Vec3) :
    (writeVecs buf pts).length = buf.length := by
  simp only [writeVecs, List.length_append, List.length_take, List.length_drop]
  omega

theorem writeVecs_drop (buf pts : List Vec3) :
    (writeVecs buf pts).drop pts.length = buf.drop pts.length := by
  unfold writeVecs
  rcases le_or_lt pts.length buf.length with hle | hlt
  · rw [List.take_of_length_le hle, List.drop_left]
  · rw [List.drop_eq_nil_of_le (le_of_lt hlt), List.append_nil]
    apply List.drop_eq_nil_of_le
    simp only [List.length_take]
    omega

theorem writeVecs_idem (buf pts : List Vec3) :
    writeVecs (writeVecs buf pts) pts = writeVecs buf pts := by
  conv_lhs => rw [writeVecs]
  rw [writeVecs_length, writeVecs_drop, writeVecs]

theorem hgWriteFamily_idem (projected : List Vec3) :
    ∀ (idx : List (List Nat)) (bufs : List (List Vec3)),
      hgWriteFamily projected idx (hgWriteFamily projected idx bufs) =
        hgWriteFamily projected idx bufs := by
  intro idx
  induction idx with
  | nil => intro bufs; cases bufs <;> rfl
  | cons i it ih =>
    intro bufs
    cases bufs with
    | nil => rfl
    | cons b bt =>
      simp only [hgWriteFamily, List.zipWith_cons_cons] at ih ⊢
      rw [writeVecs_idem]
      have := ih bt
      simp only [hgWriteFamily] at this
      rw [this]

theorem hgWriteFamily_lengths (projected : List Vec3) :
    ∀ (idx : List (List Nat)) (bufs : List (List Vec3)),
      idx.length = bufs.length →
      (hgWriteFamily projected idx bufs).map List.length = bufs.map List.length := by
  intro idx
  induction idx with
  | nil =>
    intro bufs h
    cases bufs with
    | nil => rfl
    | cons b bt => simp at h
  | cons i it ih =>
    intro bufs h
    cases bufs with
    | nil => simp at h
    | cons b bt =>
      simp only [hgWriteFamily, List.zipWith_cons_cons, List.map_cons]
      rw [writeVecs_length]
      have := ih bt (by simpa using h)
      simp only [hgWriteFamily] at this
      rw [this]

theorem mapWithTrace_eq (f : α → β) : ∀ l : List α, mapWithTrace f l = (l, l.map f) := by
  intro l
  induction l with
  | nil => rfl
  | cons x xs ih => simp [mapWithTrace, ih]

/-! ## Claim C4: an unclosable loop makes the cell emit nothing -/

/-- C4: in `CrossSectionBuilder.update()`, when a full scan of the remaining
segments finds no segment matching the dangling point (so the
reconstruction for that cell returns `none`), the cell is aborted without
raising and contributes zero points, zero triangles and zero edges for the
frame. -/
theorem c4_abandoned_cell_emits_nothing (eps : ℚ) (pairs : List (List Vec3)) (i : Nat)
    (hlen : 2 < pairs.length) (habort : reconstructLoop eps pairs = none) :
    cellEmit eps pairs i = emptyOut := by
  simp [cellEmit, hlen, habort]

theorem c4_witness : cellEmit eps0 pairsBroken 0 = emptyOut :=
  c4_abandoned_cell_emits_nothing eps0 pairsBroken 0 (by norm_num [pairsBroken])
    (by norm_num [reconstructLoop, linkAux, linkAuxF, scanStep, ptMatch, eps0,
      pairsBroken, qA, qB, qC])

/-! ## Claim C10: each loop iteration removes one segment or aborts -/

/-- C10: the loop-reconstruction while-loop terminates because each
iteration on a nonempty remaining set either aborts the cell (scan found no
match) or removes exactly one segment, strictly decreasing the remaining
count by one and continuing with the matched segment's other endpoint. -/
theorem c10_loop_strictly_decreases (eps : ℚ) (d : Vec3) (segs : List (List Vec3))
    (chain : List Vec3) (hne : segs ≠ []) :
    (scanStep eps d segs = none ∧ linkAux eps segs chain d = none) ∨
    (∃ rest q, scanStep eps d segs = some (rest, q) ∧
      rest.length + 1 = segs.length ∧
      linkAux eps segs chain d = linkAux eps rest (chain ++ [d]) q) := by
  match segs with
  | [] => exact absurd rfl hne
  | s :: ss =>
    cases h : scanStep eps d (s :: ss) with
    | none =>
      left
      refine ⟨rfl, ?_⟩
      rw [linkAux_cons, h]
    | some rq =>
      obtain ⟨rest, q⟩ := rq
      right
      exact ⟨rest, q, rfl, scanStep_length h, by rw [linkAux_cons, h]⟩

theorem c10_witness :
    (scanStep eps0 qB [[qA, qB]] = none ∧ linkAux eps0 [[qA, qB]] [qA] qB = none) ∨
    (∃ rest q, scanStep eps0 qB [[qA, qB]] = some (rest, q) ∧
      rest.length + 1 = ([[qA, qB]] : List (List Vec3)).length ∧
      linkAux eps0 [[qA, qB]] [qA] qB = linkAux eps0 rest ([qA] ++ [qB]) q) :=
  c10_loop_strictly_decreases eps0 qB [[qA, qB]] [qA] (List.cons_ne_nil _ _)

/-! ## Claim C6: construction-time fan triangulation -/

theorem cellFaceTris_fold :
    ∀ (faces : List (List Nat)) (acc : List (Nat × Nat × Nat)) (f : Nat),
      (faces.foldl
        (fun acc2 face =>
          (acc2.1 ++ (List.range (face.length - 2)).map
            (fun j => (acc2.2, acc2.2 + j + 1, acc2.2 + j + 2)),
           acc2.2 + face.length))
        (acc, f)).1 = acc ++ specFanTris f faces := by
  intro faces
  induction faces with
  | nil => intro acc f; simp [specFanTris]
  | cons face rest ih =>
    intro acc f
    rw [List.foldl_cons, ih]
    simp [specFanTris, List.append_assoc]

theorem specFanTris_length :
    ∀ (faces : List (List Nat)) (f : Nat),
      (specFanTris f faces).length = (faces.map fun fc => fc.length - 2).sum := by
  intro faces
  induction faces with
  | nil => intro f; simp [specFanTris]
  | cons face rest ih =>
    intro f
    simp [specFanTris, ih]

/-- C6: at `CellGeometryBuilder` construction, each face of `k` vertices
contributes exactly `k - 2` fan triangles `(f, f+j+1, f+j+2)` anchored at
the face's first slot `f` in the expanded per-cell index stream, where `f`
is the sum of the lengths of the preceding faces — i.e. the code's
tessellation agrees with the spec-modelled fan `specFanTris` and emits
`k - 2` triangles per `k`-vertex face. -/
theorem c6_fan_triangulation (faces : List (List Nat)) :
    cellFaceTris faces = specFanTris 0 faces ∧
    (cellFaceTris faces).length = (faces.map fun fc => fc.length - 2).sum := by
  have h := cellFaceTris_fold faces [] 0
  constructor
  · simpa [cellFaceTris] using h
  · have h2 : cellFaceTris faces = specFanTris 0 faces := by
      simpa [cellFaceTris] using h
    rw [h2, specFanTris_length]

/-! ## Claim C7: update() keeps sizes, topology and colors fixed -/

/-- C7: over any `CellGeometryBuilder.update()` call on a well-formed state
(every construction-computed index in range, one index stream per buffer),
the triangle index lists, edge index lists, color buffers and the
construction-computed index streams are unchanged, and every position
buffer keeps its exact size (no reallocation or resizing) — only position
contents (and the normals recomputed from them) change. -/
theorem c7_update_frame_conditions (project : Vec4 → Vec3) (vertices : List Vec4)
    (s : HGState)
    (hwf : ∀ idxs ∈ s.expanded ++ s.dedup, ∀ ix ∈ idxs, ix < vertices.length)
    (hc1 : s.expanded.length = s.facePos.length)
    (hc2 : s.dedup.length = s.edgePos.length)
    (hc3 : s.dedup.length = s.pointPos.length) :
    ((hgUpdate project vertices s).2.triIdx = s.triIdx) ∧
    ((hgUpdate project vertices s).2.edgeIdx = s.edgeIdx) ∧
    ((hgUpdate project vertices s).2.faceColor = s.faceColor) ∧
    ((hgUpdate project vertices s).2.edgeColor = s.edgeColor) ∧
    ((hgUpdate project vertices s).2.pointColor = s.pointColor) ∧
    ((hgUpdate project vertices s).2.expanded = s.expanded) ∧
    ((hgUpdate project vertices s).2.dedup = s.dedup) ∧
    ((hgUpdate project vertices s).2.facePos.map List.length =
      s.facePos.map List.length) ∧
    ((hgUpdate project vertices s).2.edgePos.map List.length =
      s.edgePos.map List.length) ∧
    ((hgUpdate project vertices s).2.pointPos.map List.length =
      s.pointPos.map List.length) := by
  refine ⟨rfl, rfl, rfl, rfl, rfl, rfl, rfl, ?_, ?_, ?_⟩
  · exact hgWriteFamily_lengths _ _ _ hc1
  · exact hgWriteFamily_lengths _ _ _ hc2
  · exact hgWriteFamily_lengths _ _ _ hc3

theorem c7_witness :
    ((hgUpdate (fun _ => ((0 : ℚ), 0, 0)) [u0, u1] hgStateW).2.triIdx =
      hgStateW.triIdx) ∧
    ((hgUpdate (fun _ => ((0 : ℚ), 0, 0)) [u0, u1] hgStateW).2.edgeIdx =
      hgStateW.edgeIdx) ∧
    ((hgUpdate (fun _ => ((0 : ℚ), 0, 0)) [u0, u1] hgStateW).2.faceColor =
      hgStateW.faceColor) ∧
    ((hgUpdate (fun _ => ((0 : ℚ), 0, 0)) [u0, u1] hgStateW).2.edgeColor =
      hgStateW.edgeColor) ∧
    ((hgUpdate (fun _ => ((0 : ℚ), 0, 0)) [u0, u1] hgStateW).2.pointColor =
      hgStateW.pointColor) ∧
    ((hgUpdate (fun _ => ((0 : ℚ), 0, 0)) [u0, u1] hgStateW).2.expanded =
      hgStateW.expanded) ∧
    ((hgUpdate (fun _ => ((0 : ℚ), 0, 0)) [u0, u1] hgStateW).2.dedup =
      hgStateW.dedup) ∧
    ((hgUpdate (fun _ => ((0 : ℚ), 0, 0)) [u0, u1] hgStateW).2.facePos.map List.length =
      hgStateW.facePos.map List.length) ∧
    ((hgUpdate (fun _ => ((0 : ℚ), 0, 0)) [u0, u1] hgStateW).2.edgePos.map List.length =
      hgStateW.edgePos.map List.length) ∧
    ((hgUpdate (fun _ => ((0 : ℚ), 0, 0)) [u0, u1] hgStateW).2.pointPos.map List.length =
      hgStateW.pointPos.map List.length) :=
  c7_update_frame_conditions (fun _ => ((0 : ℚ), 0, 0)) [u0, u1] hgStateW
    (by intro idxs hm ix hix
        simp only [hgStateW, List.cons_append, List.nil_append, List.mem_cons,
          List.not_mem_nil, or_false] at hm
        rcases hm with h | h <;> subst h <;> simp_all <;> omega)
    (by simp [hgStateW]) (by simp [hgStateW]) (by simp [hgStateW])

/-! ## Claim C8: update() twice is byte-identical to once -/

/-- C8: for both builders, running `update()` twice with the projector's
`project` / `slice` unchanged yields exactly the same position buffer
contents as running it once — the second pass rewrites every slot it
touches with the same values and leaves the rest untouched. -/
theorem c8_update_twice_idempotent (project : Vec4 → Vec3)
    (slice : Vec4 → Vec4 → Option Vec3) (vertices : List Vec4) (shape : Shape)
    (s : HGState) (buf : List Vec3) :
    ((hgUpdate project vertices (hgUpdate project vertices s).2).2.facePos =
      (hgUpdate project vertices s).2.facePos) ∧
    ((hgUpdate project vertices (hgUpdate project vertices s).2).2.edgePos =
      (hgUpdate project vertices s).2.edgePos) ∧
    ((hgUpdate project vertices (hgUpdate project vertices s).2).2.pointPos =
      (hgUpdate project vertices s).2.pointPos) ∧
    (hsUpdatePos eps0 slice shape (hsUpdatePos eps0 slice shape buf) =
      hsUpdatePos eps0 slice shape buf) := by
  refine ⟨?_, ?_, ?_, ?_⟩
  · simp only [hgUpdate]
    exact hgWriteFamily_idem _ _ _
  · simp only [hgUpdate]
    exact hgWriteFamily_idem _ _ _
  · simp only [hgUpdate]
    exact hgWriteFamily_idem _ _ _
  · unfold hsUpdatePos
    exact writeVecs_idem _ _

/-! ## Claim C2: projector call counts per update() -/

/-- C2 counterexample: in `shapeShared` the edge `{u0, u1}` is shared by the
cell's two faces, and one `CrossSectionBuilder.update()` passes it to
`slice` twice — more than "at most once per edge of the shape". -/
theorem c2_counterexample :
    (hsSliceCalls shapeShared).countP
      (fun ab => decide (ab = (u0, u1) ∨ ab = (u1, u0))) = 2 ∧
    1 < (hsSliceCalls shapeShared).countP
      (fun ab => decide (ab = (u0, u1) ∨ ab = (u1, u0))) := by
  constructor <;> decide

/-- C2 amended: `CellGeometryBuilder.update()` calls `project` exactly once
per vertex of the ShapeModel, in order (the argument trace of the calls is
exactly the vertex list); `CrossSectionBuilder.update()` calls `slice`
exactly once per boundary-edge occurrence of every face of every cell —
`Σ_cell Σ_face face.length` calls — not at most once per edge of the shape
(an edge shared by several face occurrences is sliced once per
occurrence). -/
theorem c2_amended (project : Vec4 → Vec3) (vertices : List Vec4) (s : HGState)
    (shape : Shape) :
    (hgUpdate project vertices s).1 = vertices ∧
    (hsSliceCalls shape).length =
      (shape.cells.map fun cell =>
        ((cellFaces shape.faces cell).map List.length).sum).sum := by
  constructor
  · show (mapWithTrace project vertices).1 = vertices
    rw [mapWithTrace_eq]
  · simp only [hsSliceCalls, List.length_flatten, List.map_map]
    congr 1
    apply List.map_congr_left
    intro cell _
    simp only [Function.comp]
    rw [List.length_flatten, List.map_map]
    congr 1
    apply List.map_congr_left
    intro face _
    simp [faceEdgeArgs]

/-! ## Claim C3: no fail-fast validation at construction -/

/-- C3 (code evaluation): on the invalid shape `shapeTwoV`, whose only face
has just 2 vertices, the default `HyperGeometry` construction — including
the `update()` call that ends the constructor — completes without raising,
for every projector.  The claim (and the spec, sections 4.2 and 7) require
an immediate construction-time failure for such input. -/
theorem c3_code_eval (project : Vec4 → Vec3) :
    (hgConstruct project shapeTwoV).isSome = true := rfl

/-! ## Claim C5: which faces contribute a pair; when reconstruction runs -/

/-- C5 counterexample: with `sliceDup`, the single face of `shapeTri` yields
the intersection list `[(5,5,5), (5,5,5)]` — only **one distinct** point —
yet it does contribute a pair to the cell's pair list (the code filters on
`pair.length > 1`, counting with multiplicity, not distinctness). -/
theorem c5_counterexample :
    cellPairs sliceDup shapeTri.vertices shapeTri.faces [0] =
      [[(5, 5, 5), (5, 5, 5)]] ∧
    (faceIntersections sliceDup shapeTri.vertices [0, 1, 2]).dedup.length = 1 := by
  constructor <;> decide

/-- C5 amended: a face contributes a pair exactly when it yields at least 2
intersection points counted with multiplicity (so every contributed pair
has length ≥ 2, but two coincident points do count); and loop
reconstruction is attempted only when the cell's filtered pair list has
length strictly greater than 2 — otherwise the cell emits nothing that
frame. -/
theorem c5_amended (eps : ℚ) (slice : Vec4 → Vec4 → Option Vec3)
    (vertices : List Vec4) (faces : List (List Nat)) (cell : List Nat) (i : Nat) :
    (∀ pr ∈ cellPairs slice vertices faces cell, 2 ≤ pr.length) ∧
    ((cellPairs slice vertices faces cell).length ≤ 2 →
      cellEmit eps (cellPairs slice vertices faces cell) i = emptyOut) := by
  constructor
  · intro pr hpr
    simp only [cellPairs, List.mem_filter, decide_eq_true_eq] at hpr
    omega
  · intro hle
    have hng : ¬ 2 < (cellPairs slice vertices faces cell).length := by omega
    simp [cellEmit, hng]

theorem c5_witness :
    2 ≤ ([((5 : ℚ), (5 : ℚ), (5 : ℚ)), (5, 5, 5)] : List Vec3).length ∧
    cellEmit eps0 (cellPairs sliceDup shapeTri.vertices shapeTri.faces [0]) 0 =
      emptyOut :=
  ⟨(c5_amended eps0 sliceDup shapeTri.vertices shapeTri.faces [0] 0).1
      [((5 : ℚ), (5 : ℚ), (5 : ℚ)), (5, 5, 5)] (by decide),
   (c5_amended eps0 sliceDup shapeTri.vertices shapeTri.faces [0] 0).2 (by decide)⟩

/-! ## Claim C9: the pessimistic buffer capacity is never exceeded -/

theorem cellPairs_length_le (slice : Vec4 → Vec4 → Option Vec3)
    (vertices : List Vec4) (faces : List (List Nat)) (cell : List Nat) :
    (cellPairs slice vertices faces cell).length ≤ cell.length := by
  calc (cellPairs slice vertices faces cell).length
      ≤ ((cellFaces faces cell).map (faceIntersections slice vertices)).length :=
        List.length_filter_le _ _
    _ = cell.length := by simp [cellFaces]

theorem reconstructLoop_length {eps : ℚ} {pairs : List (List Vec3)}
    {out : List Vec3} (h : reconstructLoop eps pairs = some out)
    (h2 : ∀ pr ∈ pairs, pr.length = 2) : out.length = pairs.length + 1 := by
  match pairs with
  | [] => simp [reconstructLoop] at h
  | first :: rest =>
    have hf : first.length = 2 := h2 first (List.mem_cons_self _ _)
    obtain ⟨a, b, rfl⟩ := List.length_eq_two.mp hf
    have hred : reconstructLoop eps ([a, b] :: rest) = linkAux eps rest [a] b := rfl
    rw [hred] at h
    have := linkAux_length h
    simp only [List.length_cons, List.length_nil] at this ⊢
    omega

theorem cellEmit_pts_le (eps : ℚ) (pairs : List (List Vec3)) (i : Nat)
    (h2 : ∀ pr ∈ pairs, pr.length = 2) :
    (cellEmit eps pairs i).pts.length ≤ 2 * pairs.length := by
  unfold cellEmit
  by_cases hg : 2 < pairs.length
  · simp only [hg, if_true]
    cases hr : reconstructLoop eps pairs with
    | none => simp [emptyOut]
    | some chain =>
      have := reconstructLoop_length hr h2
      simp only []
      omega
  · simp [hg, emptyOut]

theorem sliceCells_counter_pts (eps : ℚ) (slice : Vec4 → Vec4 → Option Vec3)
    (vertices : List Vec4) (faces : List (List Nat)) :
    ∀ (cells : List (List Nat)) (i : Nat),
      (sliceCells eps slice vertices faces cells i).1 =
        i + (sliceCells eps slice vertices faces cells i).2.1.length := by
  intro cells
  induction cells with
  | nil => intro i; simp [sliceCells]
  | cons cell cs ih =>
    intro i
    simp only [sliceCells, List.length_append]
    rw [ih]
    omega

theorem sliceCells_counter_le (eps : ℚ) (slice : Vec4 → Vec4 → Option Vec3)
    (vertices : List Vec4) (faces : List (List Nat)) :
    ∀ (cells : List (List Nat)) (i : Nat),
      (∀ cell ∈ cells, ∀ pr ∈ cellPairs slice vertices faces cell, pr.length = 2) →
      (sliceCells eps slice vertices faces cells i).1 ≤
        i + 2 * (cells.map List.length).sum := by
  intro cells
  induction cells with
  | nil => intro i _; simp [sliceCells]
  | cons cell cs ih =>
    intro i h2
    simp only [sliceCells, List.map_cons, List.sum_cons]
    have hcell : (cellEmit eps (cellPairs slice vertices faces cell) i).pts.length ≤
        2 * cell.length := by
      calc (cellEmit eps (cellPairs slice vertices faces cell) i).pts.length
          ≤ 2 * (cellPairs slice vertices faces cell).length :=
            cellEmit_pts_le eps _ i (h2 cell (List.mem_cons_self _ _))
        _ ≤ 2 * cell.length := by
            have := cellPairs_length_le slice vertices faces cell
            omega
    have hrec := ih (i + (cellEmit eps (cellPairs slice vertices faces cell) i).pts.length)
      (fun c hc => h2 c (List.mem_cons_of_mem _ hc))
    omega

/-- C9: `CrossSectionBuilder` allocates `2 ×` (total face references) point
slots at construction, and in any `update()` in which every contributing
face yields a pair of exactly 2 intersection points, the running vertex
counter ends at exactly the number of emitted points and never exceeds that
capacity — so every position (and color) write of the frame lands within
the allocated buffers. -/
theorem c9_capacity_bound (eps : ℚ) (slice : Vec4 → Vec4 → Option Vec3)
    (shape : Shape)
    (h2 : ∀ cell ∈ shape.cells,
      ∀ pr ∈ cellPairs slice shape.vertices shape.faces cell, pr.length = 2) :
    (sliceUpdate eps slice shape).1 ≤ maxPositions shape ∧
    (sliceUpdate eps slice shape).2.1.length = (sliceUpdate eps slice shape).1 := by
  constructor
  · have := sliceCells_counter_le eps slice shape.vertices shape.faces shape.cells 0 h2
    simpa [sliceUpdate, maxPositions] using this
  · have := sliceCells_counter_pts eps slice shape.vertices shape.faces shape.cells 0
    simp [sliceUpdate]
    omega

theorem c9_witness :
    (sliceUpdate eps0 sliceTetra shapeTetra).1 ≤ maxPositions shapeTetra ∧
    (sliceUpdate eps0 sliceTetra shapeTetra).2.1.length =
      (sliceUpdate eps0 sliceTetra shapeTetra).1 :=
  c9_capacity_bound eps0 sliceTetra shapeTetra (by decide)

/-! ## Claim C1: loop closure on a consistent cycle — scan lemmas -/

theorem ptMatch_refl {eps : ℚ} (heps : 0 < eps) (p : Vec3) :
    ptMatch eps p p = true := by
  simp [ptMatch, heps]

theorem ptMatch_symm (eps : ℚ) (p q : Vec3) :
    ptMatch eps p q = ptMatch eps q p := by
  simp only [ptMatch, abs_sub_comm]

theorem apart_symm {eps : ℚ} {p q : Vec3} (h : Apart eps p q) : Apart eps q p := by
  unfold Apart at h ⊢
  rw [ptMatch_symm]
  exact h

theorem linkAux_step {eps : ℚ} {d q : Vec3} {segs rest : List (List Vec3)}
    (h : scanStep eps d segs = some (rest, q)) (chain : List Vec3) :
    linkAux eps segs chain d = linkAux eps rest (chain ++ [d]) q := by
  match segs with
  | [] => simp [scanStep] at h
  | s :: ss => rw [linkAux_cons, h]

theorem scanStep_nomatch_cons {eps : ℚ} {d : Vec3} {s : List Vec3}
    (h : segHits eps d s = false) (rest : List (List Vec3)) :
    scanStep eps d (s :: rest) =
      (scanStep eps d rest).map fun rq => (s :: rq.1, rq.2) := by
  match s with
  | p1 :: p2 :: srest =>
    simp only [segHits, Bool.or_eq_false_iff] at h
    have hred : scanStep eps d ((p1 :: p2 :: srest) :: rest) =
        if ptMatch eps p1 d then some (rest, p2)
        else if ptMatch eps p2 d then some (rest, p1)
        else (scanStep eps d rest).map fun rq =>
          ((p1 :: p2 :: srest) :: rq.1, rq.2) := rfl
    rw [hred, if_neg (by simp [h.1]), if_neg (by simp [h.2])]
  | [] => rfl
  | [p1] => rfl

theorem scanStep_nomatch_append {eps : ℚ} {d : Vec3} :
    ∀ {l1 : List (List Vec3)}, (∀ s ∈ l1, segHits eps d s = false) →
      ∀ (segs : List (List Vec3)),
        scanStep eps d (l1 ++ segs) =
          (scanStep eps d segs).map fun rq => (l1 ++ rq.1, rq.2) := by
  intro l1
  induction l1 with
  | nil =>
    intro _ segs
    simp only [List.nil_append]
    cases scanStep eps d segs with
    | none => rfl
    | some rq => rfl
  | cons s l1r ih =>
    intro h segs
    have hs : segHits eps d s = false := h s (List.mem_cons_self _ _)
    have hr : ∀ x ∈ l1r, segHits eps d x = false :=
      fun x hx => h x (List.mem_cons_of_mem _ hx)
    rw [List.cons_append, scanStep_nomatch_cons hs, ih hr]
    cases scanStep eps d segs with
    | none => rfl
    | some rq => rfl

theorem scanStep_hit {eps : ℚ} {d p : Vec3} {m : List Vec3}
    (hm : SegFlip m [d, p]) (hrefl : ptMatch eps d d = true)
    (hfar : ptMatch eps p d = false) (l2 : List (List Vec3)) :
    scanStep eps d (m :: l2) = some (l2, p) := by
  rcases hm with hm | hm
  · subst hm
    have hred : scanStep eps d ([d, p] :: l2) =
        if ptMatch eps d d then some (l2, p)
        else if ptMatch eps p d then some (l2, d)
        else (scanStep eps d l2).map fun rq => ([d, p] :: rq.1, rq.2) := rfl
    rw [hred, if_pos hrefl]
  · have hm2 : m = [p, d] := by simpa using hm
    subst hm2
    have hred : scanStep eps d ([p, d] :: l2) =
        if ptMatch eps p d then some (l2, d)
        else if ptMatch eps d d then some (l2, p)
        else (scanStep eps d l2).map fun rq => ([p, d] :: rq.1, rq.2) := rfl
    rw [hred, if_neg (by simp [hfar]), if_pos hrefl]

theorem scanStep_found {eps : ℚ} {d p : Vec3} {m : List Vec3}
    {l1 l2 : List (List Vec3)} (h1 : ∀ s ∈ l1, segHits eps d s = false)
    (hm : SegFlip m [d, p]) (hrefl : ptMatch eps d d = true)
    (hfar : ptMatch eps p d = false) :
    scanStep eps d (l1 ++ m :: l2) = some (l1 ++ l2, p) := by
  rw [scanStep_nomatch_append h1 (m :: l2), scanStep_hit hm hrefl hfar l2]
  rfl

/-! ## Forall₂ and FlipPerm machinery -/

theorem forall2_mem_left {α β : Type} {R : α → β → Prop} :
    ∀ {l : List α} {r : List β}, List.Forall₂ R l r →
      ∀ {x : α}, x ∈ l → ∃ y ∈ r, R x y := by
  intro l
  induction l with
  | nil => intro r _ x hx; simp at hx
  | cons a tl ih =>
    intro r hf x hx
    rcases List.forall₂_cons_left_iff.mp hf with ⟨b, u, hab, htl, rfl⟩
    rcases List.mem_cons.mp hx with rfl | hx2
    · exact ⟨b, List.mem_cons_self _ _, hab⟩
    · obtain ⟨y, hy, hxy⟩ := ih htl hx2
      exact ⟨y, List.mem_cons_of_mem _ hy, hxy⟩

theorem forall2_append {α β : Type} {R : α → β → Prop} :
    ∀ {l1 : List α} {r1 : List β}, List.Forall₂ R l1 r1 →
      ∀ {l2 : List α} {r2 : List β}, List.Forall₂ R l2 r2 →
        List.Forall₂ R (l1 ++ l2) (r1 ++ r2) := by
  intro l1
  induction l1 with
  | nil =>
    intro r1 hf l2 r2 hf2
    rcases List.forall₂_nil_left_iff.mp hf with rfl
    exact hf2
  | cons a tl ih =>
    intro r1 hf l2 r2 hf2
    rcases List.forall₂_cons_left_iff.mp hf with ⟨b, u, hab, htl, rfl⟩
    exact List.Forall₂.cons hab (ih htl hf2)

theorem segFlip_trans {a b c : List Vec3} (h1 : SegFlip a b) (h2 : SegFlip b c) :
    SegFlip a c := by
  rcases h1 with rfl | rfl <;> rcases h2 with rfl | rfl
  · left; rfl
  · right; rfl
  · right; rfl
  · left; exact List.reverse_reverse c

theorem forall2_trans_segFlip :
    ∀ {l1 l2 l3 : List (List Vec3)}, List.Forall₂ SegFlip l1 l2 →
      List.Forall₂ SegFlip l2 l3 → List.Forall₂ SegFlip l1 l3 := by
  intro l1
  induction l1 with
  | nil =>
    intro l2 l3 h12 h23
    rcases List.forall₂_nil_left_iff.mp h12 with rfl
    rcases List.forall₂_nil_left_iff.mp h23 with rfl
    exact List.Forall₂.nil
  | cons a tl ih =>
    intro l2 l3 h12 h23
    rcases List.forall₂_cons_left_iff.mp h12 with ⟨b, u, hab, htl, rfl⟩
    rcases List.forall₂_cons_left_iff.mp h23 with ⟨c, v, hbc, hu, rfl⟩
    exact List.Forall₂.cons (segFlip_trans hab hbc) (ih htl hu)

theorem forall2_perm_right {α : Type} {R : α → α → Prop} {T T2 : List α}
    (hp : T.Perm T2) :
    ∀ {mid : List α}, List.Forall₂ R mid T →
      ∃ mid2, mid.Perm mid2 ∧ List.Forall₂ R mid2 T2 := by
  induction hp with
  | nil =>
    intro mid hf
    rcases List.forall₂_nil_right_iff.mp hf with rfl
    exact ⟨[], List.Perm.refl _, List.Forall₂.nil⟩
  | cons x hp2 ih =>
    intro mid hf
    rcases List.forall₂_cons_right_iff.mp hf with ⟨m, ms, hmx, hms, rfl⟩
    obtain ⟨ms2, hperm, hf2⟩ := ih hms
    exact ⟨m :: ms2, hperm.cons m, List.Forall₂.cons hmx hf2⟩
  | swap x y l =>
    intro mid hf
    rcases List.forall₂_cons_right_iff.mp hf with ⟨m1, ms1, hm1, hf1, rfl⟩
    rcases List.forall₂_cons_right_iff.mp hf1 with ⟨m2, ms2, hm2, hf2, rfl⟩
    exact ⟨m2 :: m1 :: ms2, List.Perm.swap m2 m1 ms2, List.Forall₂.cons hm2
      (List.Forall₂.cons hm1 hf2)⟩
  | trans hp1 hp2 ih1 ih2 =>
    intro mid hf
    obtain ⟨mid2, hperm2, hf2⟩ := ih1 hf
    obtain ⟨mid3, hperm3, hf3⟩ := ih2 hf2
    exact ⟨mid3, hperm2.trans hperm3, hf3⟩

theorem flipPerm_mem {segs target : List (List Vec3)} (h : FlipPerm segs target)
    {s : List Vec3} (hs : s ∈ segs) : ∃ t ∈ target, SegFlip s t := by
  obtain ⟨mid, hperm, hf⟩ := h
  exact forall2_mem_left hf (hperm.mem_iff.mp hs)

theorem flipPerm_cons_split {segs : List (List Vec3)} {t : List Vec3}
    {ts : List (List Vec3)} (h : FlipPerm segs (t :: ts)) :
    ∃ m l1 l2, SegFlip m t ∧ segs = l1 ++ m :: l2 ∧ FlipPerm (l1 ++ l2) ts := by
  obtain ⟨mid, hperm, hf⟩ := h
  rcases List.forall₂_cons_right_iff.mp hf with ⟨m, ms, hmt, hms, rfl⟩
  have hmem : m ∈ segs := hperm.mem_iff.mpr (List.mem_cons_self _ _)
  obtain ⟨l1, l2, rfl⟩ := List.append_of_mem hmem
  have hmid : (l1 ++ m :: l2).Perm (m :: (l1 ++ l2)) := List.perm_middle
  have hrest : (l1 ++ l2).Perm ms :=
    List.Perm.cons_inv (hmid.symm.trans hperm)
  exact ⟨m, l1, l2, hmt, rfl, ⟨ms, hrest, hms⟩⟩

theorem forall2_append_split {α β : Type} {R : α → β → Prop} :
    ∀ {l1 : List α} {x : α} {l2 : List α} {r : List β},
      List.Forall₂ R (l1 ++ x :: l2) r →
      ∃ r1 y r2, r = r1 ++ y :: r2 ∧ List.Forall₂ R l1 r1 ∧ R x y ∧
        List.Forall₂ R l2 r2 := by
  intro l1
  induction l1 with
  | nil =>
    intro x l2 r hf
    rcases List.forall₂_cons_left_iff.mp hf with ⟨y, r2, hxy, hl2, rfl⟩
    exact ⟨[], y, r2, rfl, List.Forall₂.nil, hxy, hl2⟩
  | cons a tl ih =>
    intro x l2 r hf
    rcases List.forall₂_cons_left_iff.mp hf with ⟨b, u, hab, htl, rfl⟩
    obtain ⟨r1, y, r2, rfl, hf1, hxy, hf2⟩ := ih htl
    exact ⟨b :: r1, y, r2, rfl, List.Forall₂.cons hab hf1, hxy, hf2⟩

theorem flipPerm_head_split {f : List Vec3} {rest target : List (List Vec3)}
    (h : FlipPerm (f :: rest) target) :
    ∃ t1 t t2, target = t1 ++ t :: t2 ∧ SegFlip f t ∧ FlipPerm rest (t1 ++ t2) := by
  obtain ⟨mid, hperm, hf⟩ := h
  have hmem : f ∈ mid := hperm.mem_iff.mp (List.mem_cons_self _ _)
  obtain ⟨md1, md2, rfl⟩ := List.append_of_mem hmem
  obtain ⟨t1, t, t2, rfl, hf1, hft, hf2⟩ := forall2_append_split hf
  have hmid : (md1 ++ f :: md2).Perm (f :: (md1 ++ md2)) := List.perm_middle
  have hrest : rest.Perm (md1 ++ md2) :=
    List.Perm.cons_inv (hperm.trans hmid)
  exact ⟨t1, t, t2, rfl, hft, ⟨md1 ++ md2, hrest, forall2_append hf1 hf2⟩⟩

theorem flipPerm_target_perm {segs T T2 : List (List Vec3)}
    (h : FlipPerm segs T) (hp : T.Perm T2) : FlipPerm segs T2 := by
  obtain ⟨mid, hperm, hf⟩ := h
  obtain ⟨mid2, hperm2, hf2⟩ := forall2_perm_right hp hf
  exact ⟨mid2, hperm.trans hperm2, hf2⟩

theorem flipPerm_forall2 {segs T T2 : List (List Vec3)}
    (h : FlipPerm segs T) (hf : List.Forall₂ SegFlip T T2) : FlipPerm segs T2 := by
  obtain ⟨mid, hperm, hfm⟩ := h
  exact ⟨mid, hperm, forall2_trans_segFlip hfm hf⟩

/-! ## pathSegs and cycleSegs lemmas -/

theorem pathSegs_length : ∀ (ps : List Vec3) (d : Vec3),
    (pathSegs d ps).length = ps.length := by
  intro ps
  induction ps with
  | nil => intro d; rfl
  | cons p ps2 ih => intro d; simp [pathSegs, ih]

theorem mem_pathSegs : ∀ {ps : List Vec3} {d : Vec3} {s : List Vec3},
    s ∈ pathSegs d ps → ∃ x y, s = [x, y] ∧ x ∈ d :: ps ∧ y ∈ ps := by
  intro ps
  induction ps with
  | nil => intro d s hs; simp [pathSegs] at hs
  | cons p ps2 ih =>
    intro d s hs
    rcases List.mem_cons.mp hs with rfl | hs2
    · exact ⟨d, p, rfl, List.mem_cons_self _ _,
        List.mem_cons_self _ _⟩
    · obtain ⟨x, y, rfl, hx, hy⟩ := ih hs2
      exact ⟨x, y, rfl, List.mem_cons_of_mem _ hx, List.mem_cons_of_mem _ hy⟩

theorem pathSegs_append : ∀ (l1 : List Vec3) (d : Vec3) (l2 : List Vec3),
    pathSegs d (l1 ++ l2) = pathSegs d l1 ++ pathSegs (l1.getLastD d) l2 := by
  intro l1
  induction l1 with
  | nil => intro d l2; simp [pathSegs, List.getLastD_nil]
  | cons p l1r ih =>
    intro d l2
    have h1 : pathSegs d (p :: (l1r ++ l2)) = [d, p] :: pathSegs p (l1r ++ l2) := rfl
    have h2 : pathSegs d (p :: l1r) = [d, p] :: pathSegs p l1r := rfl
    rw [List.cons_append, h1, h2, List.getLastD_cons]
    simp [ih p l2]

theorem pathSegs_snoc (es : List Vec3) (e z : Vec3) :
    pathSegs e (es ++ [z]) = pathSegs e es ++ [[es.getLastD e, z]] := by
  rw [pathSegs_append]
  rfl

theorem reverse_cons_getLastD {l : List Vec3} {a e : Vec3} {es : List Vec3}
    (h : (a :: l).reverse = e :: es) : es.getLastD e = a := by
  have h2 : e :: es = l.reverse ++ [a] := by
    rw [← h, List.reverse_cons]
  have h3 : (e :: es).getLastD a = a := by
    rw [h2, List.getLastD_concat]
  rw [List.getLastD_cons] at h3
  exact h3

theorem pathSegs_reverse : ∀ (ps : List Vec3) (d e : Vec3) (es : List Vec3),
    (d :: ps).reverse = e :: es →
    List.Forall₂ SegFlip (pathSegs d ps).reverse (pathSegs e es) := by
  intro ps
  induction ps with
  | nil =>
    intro d e es h
    simp only [List.reverse_cons, List.reverse_nil, List.nil_append,
      List.cons.injEq] at h
    obtain ⟨rfl, rfl⟩ := h
    exact List.Forall₂.nil
  | cons p ps2 ih =>
    intro d e es h
    have hne : (p :: ps2).reverse ≠ [] := by simp
    obtain ⟨e0, es0, hrev⟩ := List.exists_cons_of_ne_nil hne
    have hfull : (d :: p :: ps2).reverse = e0 :: (es0 ++ [d]) := by
      rw [List.reverse_cons, hrev]
      rfl
    rw [hfull] at h
    obtain ⟨rfl, rfl⟩ : e0 = e ∧ es0 ++ [d] = es :=
      ⟨(List.cons.injEq _ _ _ _ |>.mp h).1, (List.cons.injEq _ _ _ _ |>.mp h).2⟩
    have hlast : es0.getLastD e0 = p := reverse_cons_getLastD hrev
    have goal2 : pathSegs e0 (es0 ++ [d]) = pathSegs e0 es0 ++ [[p, d]] := by
      rw [pathSegs_snoc, hlast]
    rw [goal2]
    have lhs2 : (pathSegs d (p :: ps2)).reverse =
        (pathSegs p ps2).reverse ++ [[d, p]] := by
      simp [pathSegs]
    rw [lhs2]
    exact forall2_append (ih p e0 es0 hrev)
      (List.Forall₂.cons (Or.inr rfl) List.Forall₂.nil)

theorem cycleSegs_length (qs : List Vec3) : (cycleSegs qs).length = qs.length := by
  cases qs with
  | nil => rfl
  | cons q l => simp [cycleSegs, pathSegs_length]

theorem pathSegs_split :
    ∀ (t1 : List (List Vec3)) (d : Vec3) (L : List Vec3) (t : List Vec3)
      (t2 : List (List Vec3)),
      pathSegs d L = t1 ++ t :: t2 →
      ∃ u y v, L = u ++ y :: v ∧ t = [u.getLastD d, y] ∧
        t1 = pathSegs d u ∧ t2 = pathSegs y v := by
  intro t1
  induction t1 with
  | nil =>
    intro d L t t2 h
    match L with
    | [] => simp [pathSegs] at h
    | p :: L2 =>
      have hred : pathSegs d (p :: L2) = [d, p] :: pathSegs p L2 := rfl
      rw [hred, List.nil_append] at h
      obtain ⟨rfl, rfl⟩ : [d, p] = t ∧ pathSegs p L2 = t2 :=
        ⟨(List.cons.injEq _ _ _ _ |>.mp h).1, (List.cons.injEq _ _ _ _ |>.mp h).2⟩
      exact ⟨[], p, L2, rfl, by simp [List.getLastD_nil], rfl, rfl⟩
  | cons s t1r ih =>
    intro d L t t2 h
    match L with
    | [] => simp [pathSegs] at h
    | p :: L2 =>
      have hred : pathSegs d (p :: L2) = [d, p] :: pathSegs p L2 := rfl
      rw [hred, List.cons_append] at h
      obtain ⟨rfl, h2⟩ : [d, p] = s ∧ pathSegs p L2 = t1r ++ t :: t2 :=
        ⟨(List.cons.injEq _ _ _ _ |>.mp h).1, (List.cons.injEq _ _ _ _ |>.mp h).2⟩
      obtain ⟨u1, y, v, rfl, hteq, ht1r, ht2⟩ := ih p L2 t t2 h2
      refine ⟨p :: u1, y, v, rfl, ?_, ?_, ht2⟩
      · rw [hteq, List.getLastD_cons]
      · rw [ht1r]
        rfl

theorem cycleSegs_rotation :
    ∀ {qs : List Vec3} {t1 : List (List Vec3)} {t : List Vec3}
      {t2 : List (List Vec3)}, qs ≠ [] →
      cycleSegs qs = t1 ++ t :: t2 →
      ∃ qs2, qs2.Perm qs ∧ cycleSegs qs2 = t :: (t2 ++ t1) := by
  intro qs t1 t t2 hne h
  match qs with
  | q :: l =>
    have hred : cycleSegs (q :: l) = pathSegs q (l ++ [q]) := rfl
    rw [hred] at h
    obtain ⟨u, y, v, hL, ht, ht1, ht2⟩ := pathSegs_split t1 q (l ++ [q]) t t2 h
    rcases List.eq_nil_or_concat v with rfl | ⟨v1, z, hv⟩
    · -- the split point is the closing segment back to q
      obtain ⟨rfl, hq⟩ : l = u ∧ [q] = [y] := List.append_inj' hL rfl
      obtain rfl : q = y := by simpa using hq
      rcases List.eq_nil_or_concat l with rfl | ⟨w, x, hu⟩
      · -- singleton cycle
        subst ht1 ht2 ht
        exact ⟨[q], by simp, by simp [cycleSegs, pathSegs, List.getLastD_nil]⟩
      · rw [List.concat_eq_append] at hu
        subst hu
        have hx : (w ++ [x]).getLastD q = x := List.getLastD_concat _ _ _
        rw [hx] at ht
        subst ht ht1 ht2
        refine ⟨x :: q :: w, ?_, ?_⟩
        · have p1 : (w ++ [x]).Perm (x :: w) := List.perm_append_comm
          have p2 : (q :: (w ++ [x])).Perm (q :: x :: w) := p1.cons q
          have p3 : (x :: q :: w).Perm (q :: x :: w) := List.Perm.swap q x w
          exact p3.trans p2.symm
        · have hred2 : cycleSegs (x :: q :: w) = pathSegs x ((q :: w) ++ [x]) := rfl
          rw [hred2]
          have : (q :: w) ++ [x] = q :: (w ++ [x]) := rfl
          rw [this]
          have : pathSegs x (q :: (w ++ [x])) = [x, q] :: pathSegs q (w ++ [x]) := rfl
          rw [this]
          simp [pathSegs]
    · -- the split point is an interior segment
      rw [List.concat_eq_append] at hv
      subst hv
      have hL2 : l ++ [q] = (u ++ y :: v1) ++ [z] := by
        rw [hL, List.append_assoc, List.cons_append]
      obtain ⟨hl, hq⟩ : l = u ++ y :: v1 ∧ [q] = [z] := List.append_inj' hL2 rfl
      obtain rfl : q = z := by simpa using hq
      subst hl
      rcases List.eq_nil_or_concat u with rfl | ⟨w, x, hu⟩
      · -- the first segment itself: no rotation needed
        rw [List.getLastD_nil] at ht
        subst ht ht1 ht2
        refine ⟨q :: ([] ++ y :: v1), List.Perm.refl _, ?_⟩
        have hr1 : cycleSegs (q :: ([] ++ y :: v1)) =
            pathSegs q (([] ++ y :: v1) ++ [q]) := rfl
        rw [hr1]
        have hr2 : ([] ++ y :: v1 : List Vec3) ++ [q] = y :: (v1 ++ [q]) := rfl
        rw [hr2]
        have hr3 : pathSegs q (y :: (v1 ++ [q])) =
            [q, y] :: pathSegs y (v1 ++ [q]) := rfl
        rw [hr3]
        simp [pathSegs]
      · rw [List.concat_eq_append] at hu
        subst hu
        have hx : (w ++ [x]).getLastD q = x := List.getLastD_concat _ _ _
        rw [hx] at ht
        subst ht ht1 ht2
        refine ⟨x :: y :: (v1 ++ q :: w), ?_, ?_⟩
        · rw [List.perm_iff_count]
          intro a
          simp only [List.count_append, List.count_cons, List.count_nil]
          ring
        · have hr1 : cycleSegs (x :: y :: (v1 ++ q :: w)) =
              pathSegs x ((y :: (v1 ++ q :: w)) ++ [x]) := rfl
          rw [hr1]
          have hr2 : (y :: (v1 ++ q :: w)) ++ [x] =
              y :: (v1 ++ (q :: (w ++ [x]))) := by
            simp [List.append_assoc]
          rw [hr2]
          have hr3 : pathSegs x (y :: (v1 ++ (q :: (w ++ [x])))) =
              [x, y] :: pathSegs y (v1 ++ (q :: (w ++ [x]))) := rfl
          rw [hr3, pathSegs_append]
          have hr4 : pathSegs (v1.getLastD y) (q :: (w ++ [x])) =
              [v1.getLastD y, q] :: pathSegs q (w ++ [x]) := rfl
          rw [hr4, pathSegs_snoc v1 y q]
          simp [List.append_assoc]

theorem linkAux_path (eps : ℚ) (heps : 0 < eps) :
    ∀ (ps : List Vec3) (d : Vec3) (segs : List (List Vec3)) (chain : List Vec3),
      (d :: ps).Pairwise (Apart eps) →
      FlipPerm segs (pathSegs d ps) →
      linkAux eps segs chain d = some (chain ++ d :: ps) := by
  intro ps
  induction ps with
  | nil =>
    intro d segs chain _ hfp
    obtain ⟨mid, hperm, hf⟩ := hfp
    rcases List.forall₂_nil_right_iff.mp hf with rfl
    rw [List.perm_nil.mp hperm]
    exact linkAux_nil eps chain d
  | cons p ps2 ih =>
    intro d segs chain hpw hfp
    obtain ⟨m, l1, l2, hflip, rfl, hrest⟩ := flipPerm_cons_split hfp
    have hd := List.pairwise_cons.mp hpw
    have hdp : Apart eps d p := hd.1 p (List.mem_cons_self _ _)
    have hnohit : ∀ s ∈ l1, segHits eps d s = false := by
      intro s hs
      have hs2 : s ∈ l1 ++ l2 := List.mem_append.mpr (Or.inl hs)
      obtain ⟨tseg, htm, hsf⟩ := flipPerm_mem hrest hs2
      obtain ⟨x, y, rfl, hx, hy⟩ := mem_pathSegs htm
      have hax : ptMatch eps x d = false := by
        rw [ptMatch_symm]
        exact hd.1 x hx
      have hay : ptMatch eps y d = false := by
        rw [ptMatch_symm]
        exact hd.1 y (List.mem_cons_of_mem _ hy)
      rcases hsf with rfl | hsf
      · simp [segHits, hax, hay]
      · have hs3 : s = [y, x] := by simpa using hsf
        subst hs3
        simp [segHits, hax, hay]
    have hscan : scanStep eps d (l1 ++ m :: l2) = some (l1 ++ l2, p) :=
      scanStep_found hnohit hflip (ptMatch_refl heps d)
        (by rw [ptMatch_symm]; exact hdp)
    rw [linkAux_step hscan chain, ih p (l1 ++ l2) (chain ++ [d]) hd.2 hrest]
    simp

/-- C1 (amended): for a cell whose per-face pairs form, in any list order
and with either endpoint order, a single consistent cycle of `n ≥ 3`
two-point segments over pairwise-apart points, the loop reconstruction of
`update()` succeeds, consumes each contributing face's pair exactly once,
and yields a chain of length exactly `n + 1` — the `n` cycle points in
order followed by a repetition of the starting point (the code pushes the
closing endpoint explicitly), not a chain of length `n`. -/
theorem c1_cycle_closure (eps : ℚ) (heps : 0 < eps) (qs : List Vec3)
    (pairs : List (List Vec3)) (hlen : 3 ≤ qs.length)
    (hfar : qs.Pairwise (Apart eps))
    (hcyc : FlipPerm pairs (cycleSegs qs)) :
    ∃ chain, reconstructLoop eps pairs = some chain ∧
      chain.length = pairs.length + 1 ∧ pairs.length = qs.length ∧
      chain.head? = chain.getLast? := by
  have hplen : pairs.length = qs.length := by
    obtain ⟨mid, hperm, hf⟩ := hcyc
    rw [hperm.length_eq, hf.length_eq, cycleSegs_length]
  have hpne : pairs ≠ [] := by
    intro hp
    rw [hp] at hplen
    simp at hplen
    omega
  obtain ⟨first, prest, rfl⟩ := List.exists_cons_of_ne_nil hpne
  obtain ⟨t1, t, t2, htarget, hflip, hrest⟩ := flipPerm_head_split hcyc
  have hqne : qs ≠ [] := by
    intro hq
    rw [hq] at hlen
    simp at hlen
  obtain ⟨qs2, hqperm, hcyc2⟩ := cycleSegs_rotation hqne htarget
  have hrest2 : FlipPerm prest (t2 ++ t1) :=
    flipPerm_target_perm hrest List.perm_append_comm
  have hq2len : qs2.length = qs.length := hqperm.length_eq
  have hq2ne : qs2 ≠ [] := by
    intro h
    rw [h] at hq2len
    simp at hq2len
    omega
  obtain ⟨a, btail, rfl⟩ := List.exists_cons_of_ne_nil hq2ne
  have hbne : btail ≠ [] := by
    intro h
    subst h
    simp at hq2len
    omega
  obtain ⟨b, bt2, rfl⟩ := List.exists_cons_of_ne_nil hbne
  have hred : cycleSegs (a :: b :: bt2) = [a, b] :: pathSegs b (bt2 ++ [a]) := rfl
  rw [hred] at hcyc2
  obtain ⟨hta, hpath⟩ : [a, b] = t ∧ pathSegs b (bt2 ++ [a]) = t2 ++ t1 :=
    ⟨(List.cons.injEq _ _ _ _ |>.mp hcyc2).1, (List.cons.injEq _ _ _ _ |>.mp hcyc2).2⟩
  subst hta
  have hfar2 : ((a : Vec3) :: b :: bt2).Pairwise (Apart eps) :=
    (List.Perm.pairwise_iff (fun h => apart_symm h) hqperm).mpr hfar
  have hfp0 : FlipPerm prest (pathSegs b (bt2 ++ [a])) := by
    rw [hpath]
    exact hrest2
  have hlen2 : ((a : Vec3) :: b :: bt2).length = qs.length := hq2len
  rcases hflip with rfl | hflipr
  · -- the seed pair is stored as [a, b]
    have hrec : reconstructLoop eps ([a, b] :: prest) = linkAux eps prest [a] b := rfl
    have hpw : ((b : Vec3) :: (bt2 ++ [a])).Pairwise (Apart eps) := by
      have hp : ((b : Vec3) :: bt2 ++ [a]).Perm (a :: b :: bt2) := by
        have hcomm : (((b : Vec3) :: bt2) ++ [a]).Perm ([a] ++ (b :: bt2)) :=
          List.perm_append_comm
        simpa using hcomm
      exact (List.Perm.pairwise_iff (fun h => apart_symm h) hp).mpr hfar2
    have hlink := linkAux_path eps heps (bt2 ++ [a]) b prest [a] hpw hfp0
    refine ⟨[a] ++ b :: (bt2 ++ [a]), by rw [hrec]; exact hlink, ?_, hplen, ?_⟩
    · simp only [List.length_cons] at hplen
      simp only [List.length_append, List.length_cons, List.length_nil] at hlen2 ⊢
      omega
    · have hshape : ([a] ++ (b : Vec3) :: (bt2 ++ [a])) = (a :: b :: bt2) ++ [a] := by
        simp
      rw [hshape, List.getLast?_concat]
      rfl
  · -- the seed pair is stored flipped, as [b, a]
    have hfr : first = [b, a] := by simpa using hflipr
    subst hfr
    have hrec : reconstructLoop eps ([b, a] :: prest) = linkAux eps prest [b] a := rfl
    have hrev : ((b : Vec3) :: (bt2 ++ [a])).reverse = a :: ((b :: bt2).reverse) := by
      simp
    have hfor := pathSegs_reverse (bt2 ++ [a]) b a ((b :: bt2).reverse) hrev
    have hfp1 : FlipPerm prest ((pathSegs b (bt2 ++ [a])).reverse) :=
      flipPerm_target_perm hfp0 (List.reverse_perm _).symm
    have hfp2 : FlipPerm prest (pathSegs a ((b :: bt2).reverse)) :=
      flipPerm_forall2 hfp1 hfor
    have hpw : ((a : Vec3) :: (b :: bt2).reverse).Pairwise (Apart eps) := by
      have hp : ((a : Vec3) :: (b :: bt2).reverse).Perm (a :: b :: bt2) :=
        (List.reverse_perm _).cons a
      exact (List.Perm.pairwise_iff (fun h => apart_symm h) hp).mpr hfar2
    have hlink := linkAux_path eps heps ((b :: bt2).reverse) a prest [b] hpw hfp2
    refine ⟨[b] ++ a :: ((b :: bt2).reverse), by rw [hrec]; exact hlink, ?_, hplen, ?_⟩
    · simp only [List.length_cons] at hplen
      simp only [List.length_append, List.length_cons, List.length_nil,
        List.length_reverse] at hlen2 ⊢
      omega
    · have hshape : ([b] ++ (a : Vec3) :: ((b :: bt2).reverse)) =
          (b :: a :: bt2.reverse) ++ [b] := by
        simp
      rw [hshape, List.getLast?_concat]
      rfl

theorem c1_witness :
    ∃ chain, reconstructLoop eps0 pairsCyc = some chain ∧
      chain.length = pairsCyc.length + 1 ∧ pairsCyc.length = qsCyc.length ∧
      chain.head? = chain.getLast? := by
  refine c1_cycle_closure eps0 (by norm_num [eps0]) qsCyc pairsCyc
    (by norm_num [qsCyc]) ?_ ?_
  · show ([qA, qB, qC, qD] : List Vec3).Pairwise (Apart eps0)
    norm_num [List.pairwise_cons, Apart, ptMatch, eps0, qA, qB, qC, qD]
  · refine ⟨midCyc, ?_, ?_⟩
    · rw [List.perm_iff_count]
      intro a
      simp only [pairsCyc, midCyc, List.count_cons, List.count_nil]
      ring
    · show List.Forall₂ SegFlip
        [[qB, qA], [qB, qC], [qC, qD], [qD, qA]]
        [[qA, qB], [qB, qC], [qC, qD], [qD, qA]]
      exact .cons (Or.inr rfl) (.cons (Or.inl rfl) (.cons (Or.inl rfl)
        (.cons (Or.inl rfl) .nil)))

/-- C1 counterexample: on the square cycle `pairsCyc` (4 faces' pairs), the
reconstructed chain is `[qB, qA, qD, qC, qB]` — 5 points, not 4: the claim
that the chain length equals the number of intersected faces fails. -/
theorem c1_counterexample :
    reconstructLoop eps0 pairsCyc = some [qB, qA, qD, qC, qB] ∧
    ([qB, qA, qD, qC, qB] : List Vec3).length ≠ pairsCyc.length := by
  constructor
  · norm_num [reconstructLoop, linkAux, linkAuxF, scanStep, ptMatch, eps0,
      pairsCyc, qA, qB, qC, qD]
  · norm_num [pairsCyc]
